import Mathlib

/-!
Verification of the display-name resolution and propagation engine of the
obsidian-property-over-file-name plugin, shallowly embedded from the
TypeScript source.

The embedding covers:
* the JavaScript value model and string coercion used by the resolvers,
* the three display-name resolver copies (bulk buildFileCache, the
  String-coercion buildFileCache and updateFileCache copies),
* alias normalization,
* the tiered search classification of LinkTitleSuggest.performSearch and
  QuickSwitchModal.performSearch,
* the WindowFrameService enable and disable patching,
* the file display cache together with the vault delete handler,
* the FrontmatterCache as a small-step state machine over interleavings
  of get, read-completion, invalidate and clear events,
* the getFrontmatter accessor with its error absorption.
-/

namespace POF

/-- JavaScript values as they occur in parsed frontmatter.  Object values
only matter to the resolvers through their typeof and String coercion, so
the constructor carries no fields. -/
inductive JsVal where
  | str (s : String)
  | num (n : Int)
  | bool (b : Bool)
  | null
  | arr (elems : List JsVal)
  | obj

mutual

/-- JavaScript String(v) coercion: strings unchanged, numbers and booleans
printed, null prints as "null", arrays join their elements with commas
(Array.prototype.toString), plain objects print as "[object Object]". -/
def jsToString : JsVal → String
  | .str s => s
  | .num n => toString n
  | .bool b => if b then "true" else "false"
  | .null => "null"
  | .arr l => jsJoinElems l
  | .obj => "[object Object]"

/-- Array.prototype.join "," over the elements. -/
def jsJoinElems : List JsVal → String
  | [] => ""
  | [x] => jsElemToString x
  | x :: y :: rest => jsElemToString x ++ "," ++ jsJoinElems (y :: rest)

/-- Inside Array.prototype.join, null elements render as the empty string
rather than "null". -/
def jsElemToString : JsVal → String
  | .null => ""
  | .str s => s
  | .num n => toString n
  | .bool b => if b then "true" else "false"
  | .arr l => jsJoinElems l
  | .obj => "[object Object]"

end

/-- Whitespace characters removed by String.prototype.trim (core set). -/
def jsWs (c : Char) : Bool :=
  c == ' ' || c == '\t' || c == '\n' || c == '\r'

/-- trim on the character list: drop whitespace from the front, then from
the back. -/
def jsTrimList (l : List Char) : List Char :=
  ((l.dropWhile jsWs).reverse.dropWhile jsWs).reverse

/-- JavaScript String.prototype.trim. -/
def jsTrim (s : String) : String :=
  ⟨jsTrimList s.data⟩

/-- Parsed frontmatter: a string-keyed mapping to JavaScript values. -/
abbrev Metadata := List (String × JsVal)

/-- Property lookup, frontmatter[key]; none models undefined. -/
def getProp (m : Metadata) (k : String) : Option JsVal :=
  (m.find? (fun e => e.1 == k)).map (fun e => e.2)

/-- Resolved display data: the display string and the custom flag. -/
structure Resolved where
  displayName : String
  isCustomDisplay : Bool
deriving DecidableEq

/-- Display-name resolution of the async buildFileCache in
src/unnamed/part_015 (lines 299 to 318): the property value is used only
when it is a string, number or boolean; objects and arrays are skipped,
and a value whose trimmed string form is empty falls back to the
basename. -/
def resolveDisplayBulk (fm : Option Metadata) (basename propertyKey : String) : Resolved :=
  match fm with
  | none => ⟨basename, false⟩
  | some m =>
    match getProp m propertyKey with
    | none => ⟨basename, false⟩
    | some .null => ⟨basename, false⟩
    | some (.str s) =>
      let pv := jsTrim s
      if pv = "" then ⟨basename, false⟩ else ⟨pv, true⟩
    | some (.num n) =>
      let pv := jsTrim (jsToString (.num n))
      if pv = "" then ⟨basename, false⟩ else ⟨pv, true⟩
    | some (.bool b) =>
      let pv := jsTrim (jsToString (.bool b))
      if pv = "" then ⟨basename, false⟩ else ⟨pv, true⟩
    | some (.arr _) => ⟨basename, false⟩
    | some .obj => ⟨basename, false⟩

/-- Display-name resolution of LinkTitleSuggest.updateFileCache
(src/src/ui/LinkTitleSuggest.ts lines 79 to 85), also used verbatim by
the synchronous buildFileCache in src/unnamed/part_010 and by
QuickSwitchModal.updateFileCache: any non-null present value is coerced
with String(v) and trimmed, with no scalar check. -/
def resolveDisplayCoerce (fm : Option Metadata) (basename propertyKey : String) : Resolved :=
  match fm with
  | none => ⟨basename, false⟩
  | some m =>
    match getProp m propertyKey with
    | none => ⟨basename, false⟩
    | some .null => ⟨basename, false⟩
    | some v =>
      let pv := jsTrim (jsToString v)
      if pv = "" then ⟨basename, false⟩ else ⟨pv, true⟩

/-- True exactly on string, number and boolean values. -/
def jsScalarB : JsVal → Bool
  | .str _ => true
  | .num _ => true
  | .bool _ => true
  | _ => false

/-- Modelled from the spec words (section 4.3): if metadata[propertyKey]
is present, is a scalar (string, number or boolean) and its trimmed
string form is non-empty, that trimmed string is the display name with
isCustomDisplay true; otherwise the basename with isCustomDisplay
false.  Used only to compare the code resolvers against the spec. -/
def specResolveDisplay (fm : Option Metadata) (basename propertyKey : String) : Resolved :=
  match fm with
  | none => ⟨basename, false⟩
  | some m =>
    match getProp m propertyKey with
    | none => ⟨basename, false⟩
    | some v =>
      if jsScalarB v && (jsTrim (jsToString v) != "") then
        ⟨jsTrim (jsToString v), true⟩
      else ⟨basename, false⟩

/-- The property value a document presents for a key, across an optional
frontmatter. -/
def optProp (fm : Option Metadata) (k : String) : Option JsVal :=
  fm.bind (fun m => getProp m k)

/-- True when the looked-up property value is absent, null, or scalar,
the domain on which the String-coercion resolver agrees with the spec. -/
def scalarOrAbsent : Option JsVal → Bool
  | none => true
  | some .null => true
  | some v => jsScalarB v

/-- The frontmatter aliases value as an element list: an array supplies
its elements, a lone scalar becomes a one-element list. -/
def aliasElems : JsVal → List JsVal
  | .arr l => l
  | v => [v]

/-- Alias normalization as in buildFileCache (src/unnamed/part_015 lines
320 to 324 and src/unnamed/part_010 lines 67 to 70): accept a single
scalar or an array, coerce every element with String, trim, and drop
entries that are empty after trimming. -/
def normalizeAliases (v : JsVal) : List String :=
  (((aliasElems v).map jsToString).map jsTrim).filter (fun s => s != "")

/-- JavaScript truthiness, which guards the aliases block
(frontmatter?.aliases). -/
def jsTruthy : JsVal → Bool
  | .str s => s != ""
  | .num n => n != 0
  | .bool b => b
  | .null => false
  | .arr _ => true
  | .obj => true

/-- The alias list a cache entry records for a document: empty unless the
aliases property is present and truthy, else its normalization. -/
def resolveAliases (fm : Option Metadata) : List String :=
  match fm with
  | none => []
  | some m =>
    match getProp m "aliases" with
    | none => []
    | some v => if jsTruthy v then normalizeAliases v else []

/-! ## Tiered search classification

Both performSearch implementations classify one candidate at a time
against a host-prepared matcher.  The matcher is modelled as a function
from the searched string to an optional score: none stands for a null
result or a result whose matches array is empty. -/

/-- Which tier produced the match, the ephemeral SearchMatchReason. -/
inductive MatchTier where
  | title
  | filename
  | alias
deriving DecidableEq

/-- The per-candidate outcome: the winning tier and the final score. -/
structure TierMatch where
  tier : MatchTier
  score : Int
deriving DecidableEq

/-- The alias loop shared by both call sites: iterate aliases in order,
first alias with a non-empty match wins, downranked by one. -/
def aliasScan (search : String → Option Int) : List String → Option TierMatch
  | [] => none
  | a :: rest =>
    match search a with
    | some s => some ⟨.alias, s - 1⟩
    | none => aliasScan search rest

/-- The guarded file-name tier shared by both call sites: only when
includeFilenameInSearch is set and the basename differs from the display
name, match the basename and downrank the score by one. -/
def fnameStepGuard (search : String → Option Int) (inclFile : Bool)
    (displayName basename : String) : Option TierMatch :=
  if inclFile && (basename != displayName) then
    (search basename).map (fun s => ⟨.filename, s - 1⟩)
  else none

/-- The alias tier entry shared by both call sites: only when
includeAliasesInSearch is set and the alias list is non-empty. -/
def aliasStep (search : String → Option Int) (inclAlias : Bool)
    (aliases : List String) : Option TierMatch :=
  if inclAlias && !aliases.isEmpty then aliasScan search aliases else none

/-- Per-candidate classification of LinkTitleSuggest.performSearch
(src/src/ui/LinkTitleSuggest.ts lines 145 to 178): title tier always
attempted on displayName; on failure the guarded file-name tier; the
alias tier runs only when no earlier tier matched. -/
def ltsClassify (search : String → Option Int) (inclFile inclAlias : Bool)
    (displayName basename : String) (aliases : List String) : Option TierMatch :=
  match (search displayName).map (fun s => (⟨.title, s⟩ : TierMatch)) with
  | some m => some m
  | none =>
    match fnameStepGuard search inclFile displayName basename with
    | some m => some m
    | none => aliasStep search inclAlias aliases

/-- The file-name stage of QuickSwitchModal.performSearch (lines 352 to
371): the guarded downranked branch, but a candidate without custom
display falls into an unguarded file-name branch with no downranking. -/
def qsFnameStep (search : String → Option Int) (inclFile isCustomDisplay : Bool)
    (displayName basename : String) : Option TierMatch :=
  if inclFile && (basename != displayName) then
    (search basename).map (fun s => ⟨.filename, s - 1⟩)
  else if !isCustomDisplay then
    (search basename).map (fun s => ⟨.filename, s⟩)
  else none

/-- Per-candidate classification of QuickSwitchModal.performSearch
(src/src/ui/QuickSwitchModal.ts lines 336 to 386): the title tier is
attempted only when the candidate has a custom display; then the
file-name stage; the alias tier runs only when no earlier tier
matched. -/
def qsClassify (search : String → Option Int) (inclFile inclAlias isCustomDisplay : Bool)
    (displayName basename : String) (aliases : List String) : Option TierMatch :=
  match (if isCustomDisplay then (search displayName).map (fun s => (⟨.title, s⟩ : TierMatch))
         else none) with
  | some m => some m
  | none =>
    match qsFnameStep search inclFile isCustomDisplay displayName basename with
    | some m => some m
    | none => aliasStep search inclAlias aliases

/-! ## WindowFrameService enable and disable

Function objects are modelled by identity: calling bind on a function
creates a fresh function object wrapping it, and the service installs its
own bound updateTitle.  The behavior denotation forwards through bound
wrappers, capturing that a bound copy calls the function it wraps. -/

/-- Identity of a JavaScript function object in the updateTitle slot. -/
inductive FnRef where
  | host (id : Nat)
  | boundOf (f : FnRef)
  | pluginImpl
deriving DecidableEq

/-- What a function does when called, up to the observations that matter
here: a bound copy behaves as the function it wraps. -/
def fnBehavior : FnRef → Nat
  | .host id => id
  | .boundOf f => fnBehavior f
  | .pluginImpl => 0

/-- The mutable state touched by WindowFrameService: the
workspace.updateTitle slot, the stored originalUpdateTitle, and the
enabled flag. -/
structure WFState where
  slot : Option FnRef
  original : Option FnRef
  enabled : Bool
deriving DecidableEq

/-- WindowFrameService.enable (src/src/services/WindowFrameService.ts
lines 127 to 145): when not already enabled and the slot is populated,
store a bound copy of the current slot value and install the plugin
implementation. -/
def wfEnable (s : WFState) : WFState :=
  if s.enabled then s
  else
    match s.slot with
    | some f => { slot := some .pluginImpl, original := some (.boundOf f), enabled := true }
    | none => s

/-- WindowFrameService.disable (lines 150 to 166): when enabled and both
the slot and the stored original are populated, write the stored value
back into the slot and clear the bookkeeping. -/
def wfDisable (s : WFState) : WFState :=
  if !s.enabled then s
  else
    match s.slot, s.original with
    | some _, some g => { slot := some g, original := none, enabled := false }
    | _, _ => s

/-! ## File display cache and the vault delete handler

The suggest file cache is a JavaScript Map from path to cached data.
Map.set replaces an existing binding in place and otherwise appends. -/

/-- A vault file as the cache code sees it. -/
structure FileRec where
  path : String
  basename : String
  mtime : Nat

/-- One cache entry, the CachedFileData of src/src/types.ts; the TFile
reference is retained through its path. -/
structure CachedFileData where
  filePath : String
  displayName : String
  aliases : List String
  lastModified : Nat
  isCustomDisplay : Bool
deriving DecidableEq

/-- JavaScript Map.set on an association list: replace the first binding
of the key in place, else append. -/
def setAssoc {β : Type} (l : List (String × β)) (k : String) (v : β) : List (String × β) :=
  match l with
  | [] => [(k, v)]
  | (k0, v0) :: rest =>
    if k0 == k then (k0, v) :: rest else (k0, v0) :: setAssoc rest k v

/-- JavaScript Map.get on an association list. -/
def lookupAssoc {β : Type} (l : List (String × β)) (k : String) : Option β :=
  match l with
  | [] => none
  | (k0, v0) :: rest => if k0 == k then some v0 else lookupAssoc rest k

/-- JavaScript Map.delete on an association list.  Every state in this
development grows from the empty map through setAssoc, so keys are
unique and removing all bindings of the key coincides with Map.delete. -/
def removeAssoc {β : Type} (l : List (String × β)) (k : String) : List (String × β) :=
  l.filter (fun e => e.1 != k)

/-- The cache entry resolved for one file, as computed identically by the
bodies of buildFileCache (src/unnamed/part_010 lines 52 to 79) and
LinkTitleSuggest.updateFileCache (lines 72 to 99). -/
def resolveRecord (f : FileRec) (fm : Option Metadata) (propertyKey : String) : CachedFileData :=
  let r := resolveDisplayCoerce fm f.basename propertyKey
  { filePath := f.path
    displayName := r.displayName
    aliases := resolveAliases fm
    lastModified := f.mtime
    isCustomDisplay := r.isCustomDisplay }

/-- buildFileCache (src/unnamed/part_010 lines 45 to 82): resolve every
given file against the metadata cache and set each entry in order. -/
def buildFileCachePure (files : List FileRec) (mc : String → Option Metadata)
    (propertyKey : String) : List (String × CachedFileData) :=
  files.foldl (fun acc f => setAssoc acc f.path (resolveRecord f (mc f.path) propertyKey)) []

/-- The vault delete handler: main.ts lines 97 to 103 route a deleted
markdown file into CacheService.invalidateCache (lines 16 to 22), which
calls suggest.updateFileCache(file), which re-resolves and sets the
entry for that path; fm is the metadata the host cache reports for the
file at that moment. -/
def deleteHandler (cache : List (String × CachedFileData)) (f : FileRec)
    (fm : Option Metadata) (propertyKey : String) : List (String × CachedFileData) :=
  setAssoc cache f.path (resolveRecord f fm propertyKey)

/-! ## FrontmatterCache as a small-step machine

src/unnamed/part_008 (equivalently part_007): a cache map, a pending map
of in-flight promises, get, getSync, invalidate and clear.  Interleaved
executions are modelled by a trace of atomic events.  A get call runs its
synchronous prologue atomically (cache check, pending check, and when
both miss, starting a read and storing its promise); a read resolving
runs the owning get continuation atomically (cache.set, then the finally
clause deleting the pending entry for the key).  The value a read
delivers is chosen by the environment at completion time, since the file
content can change while the read is in flight.  Values are parametric
in a type alpha standing for Record-or-null results. -/

/-- One issued read: its promise identity, its key, and whether its
owning continuation has run. -/
structure ReadRec where
  rid : Nat
  path : String
  completed : Bool
deriving DecidableEq

/-- The FrontmatterCache state. -/
structure FCState (α : Type) where
  cache : List (String × α)
  pending : List (String × Nat)
  reads : List ReadRec
  nextId : Nat

/-- The initial state: empty cache, nothing pending, no reads issued. -/
def fcInit (α : Type) : FCState α :=
  { cache := [], pending := [], reads := [], nextId := 0 }

/-- Atomic events of an interleaving. -/
inductive FCAct (α : Type) where
  | get (p : String)
  | complete (rid : Nat) (v : α)
  | invalidate (p : String)
  | clear

/-- The effect of a read resolving, given the read record found for the
identifier: nothing for an unknown or already-completed read, else the
owning continuation runs atomically: cache.set with the delivered value,
the finally clause removing the pending entry for the key, and the read
marked completed. -/
def fcApplyComplete {α : Type} (s : FCState α) (rid : Nat) (v : α) :
    Option ReadRec → FCState α
  | none => s
  | some r =>
    if r.completed then s
    else
      { s with cache := setAssoc s.cache r.path v,
               pending := removeAssoc s.pending r.path,
               reads := s.reads.map (fun q => if q.rid == rid then ⟨q.rid, q.path, true⟩ else q) }

/-- One step of the machine, mirroring the method bodies:
get returns the cached value on a cache hit, awaits the stored promise
on a pending hit, and otherwise issues a fresh read and stores it in
pending; a completion writes the result into the cache unconditionally
and then deletes the pending entry for the key (the finally clause);
invalidate deletes both maps at the key; clear empties both maps. -/
def fcStep {α : Type} (s : FCState α) : FCAct α → FCState α
  | .get p =>
    if (lookupAssoc s.cache p).isSome then s
    else if (lookupAssoc s.pending p).isSome then s
    else
      { s with pending := setAssoc s.pending p s.nextId,
               reads := s.reads ++ [⟨s.nextId, p, false⟩],
               nextId := s.nextId + 1 }
  | .complete rid v =>
    fcApplyComplete s rid v (s.reads.find? (fun r => r.rid == rid))
  | .invalidate p =>
    { s with cache := removeAssoc s.cache p, pending := removeAssoc s.pending p }
  | .clear =>
    { s with cache := [], pending := [] }

/-- Run a trace from the initial state. -/
def fcRun {α : Type} (tr : List (FCAct α)) : FCState α :=
  tr.foldl fcStep (fcInit α)

/-- FrontmatterCache.getSync: a plain map lookup; none models undefined
(never populated), some models the stored Record-or-null. -/
def fcGetSync {α : Type} (s : FCState α) (p : String) : Option α :=
  lookupAssoc s.cache p

/-- Membership test on a list of paths. -/
def memS (l : List String) (p : String) : Bool :=
  match l with
  | [] => false
  | a :: rest => if a == p then true else memS rest p

/-- Spec-side history instrumentation for the three-valued lookup claim:
the set of keys for which some get call has completed since the last
invalidate of that key or clear.  A get completes immediately on a cache
hit; a get that started or awaited a read completes when that read's
completion event fires. -/
def fcFlagsComplete (flags : List String) : Option ReadRec → List String
  | none => flags
  | some r => if r.completed then flags else r.path :: flags

def fcFlagsStep {α : Type} (s : FCState α) (flags : List String) : FCAct α → List String
  | .get p => if (lookupAssoc s.cache p).isSome then p :: flags else flags
  | .complete rid _ => fcFlagsComplete flags (s.reads.find? (fun r => r.rid == rid))
  | .invalidate p => flags.filter (fun q => q != p)
  | .clear => []

/-- Spec-side history instrumentation: the result delivered by the most
recent completed read recorded for each key, forgotten on invalidate and
clear. -/
def fcLastComplete {α : Type} (last : List (String × α)) (v : α) :
    Option ReadRec → List (String × α)
  | none => last
  | some r => if r.completed then last else setAssoc last r.path v

def fcLastStep {α : Type} (s : FCState α) (last : List (String × α)) : FCAct α → List (String × α)
  | .get _ => last
  | .complete rid v => fcLastComplete last v (s.reads.find? (fun r => r.rid == rid))
  | .invalidate p => removeAssoc last p
  | .clear => []

/-- One step of the machine paired with both spec-side histories. -/
def fcStepH {α : Type} (acc : FCState α × List String × List (String × α)) (a : FCAct α) :
    FCState α × List String × List (String × α) :=
  (fcStep acc.1 a, fcFlagsStep acc.1 acc.2.1 a, fcLastStep acc.1 acc.2.2 a)

/-- Run the machine together with both spec-side histories. -/
def fcRunH {α : Type} (tr : List (FCAct α)) : FCState α × List String × List (String × α) :=
  tr.foldl fcStepH (fcInit α, [], [])

/-- Restriction of traces to concurrent get calls and their completions,
the setting of the single-in-flight-read claim. -/
def isGetOrComplete {α : Type} : FCAct α → Bool
  | .get _ => true
  | .complete _ _ => true
  | _ => false

/-- The machine invariant behind the single-in-flight-read property:
issued read identifiers stay below the counter and are pairwise
distinct, and every in-flight read is registered in pending under its
key. -/
def FCInv {α : Type} (s : FCState α) : Prop :=
  (∀ r ∈ s.reads, r.rid < s.nextId)
  ∧ List.Pairwise (fun a b => a.rid ≠ b.rid) s.reads
  ∧ (∀ r ∈ s.reads, r.completed = false → lookupAssoc s.pending r.path = some r.rid)

/-! ## The getFrontmatter accessor -/

/-- Outcomes of the host YAML parser.  A mapping and a sequence both have
JavaScript typeof object and are truthy; a scalar or a null parse result
fails the object check in the accessor. -/
inductive YamlVal where
  | mapping (m : Metadata)
  | sequence (elems : List JsVal)
  | scalar (v : JsVal)
  | nil

/-- True on the parser outcomes that pass the accessor check
(parsed && typeof parsed === "object"). -/
def yamlIsObject : YamlVal → Bool
  | .mapping _ => true
  | .sequence _ => true
  | _ => false

/-- The everything-before-the-first-occurrence-of-pat of a character
list, or none when pat does not occur. -/
def takeUntilSub (l pat : List Char) : Option (List Char) :=
  match l with
  | [] => none
  | c :: rest =>
    if pat.isPrefixOf (c :: rest) then some []
    else (takeUntilSub rest pat).map (fun t => c :: t)

/-- The frontmatter block match of the accessor regex: the content must
start with the opening marker line, and the block runs up to the next
newline-plus-marker occurrence; no occurrence means no match. -/
def extractBlock (content : String) : Option String :=
  let cs := content.data
  if ("---\n".data).isPrefixOf cs then
    (takeUntilSub (cs.drop 4) ("\n---".data)).map (fun b => ⟨b⟩)
  else none

/-- The world getFrontmatter runs against: the file extension, the MDX
support flag, the host metadata cache view for md files, the outcome of
the raw content read, and the host YAML parser behavior. -/
structure AccessorEnv where
  ext : String
  mdxSupport : Bool
  mdCache : Option Metadata
  readResult : Except Unit String
  parseYaml : String → Except Unit YamlVal

/-- getFrontmatter (src/unnamed/part_009 lines 15 to 58).  Every failure
is absorbed into none: a read rejection is caught and yields none, a
parser exception is caught and yields none, a parse result that is not a
truthy object yields none, and unsupported extensions yield none.  The
return type Option Metadata itself expresses that no exception reaches
the caller. -/
def getFrontmatterModel (env : AccessorEnv) : Option Metadata :=
  if env.ext == "md" then env.mdCache
  else if env.ext == "mdx" && env.mdxSupport then
    match env.readResult with
    | .error _ => none
    | .ok content =>
      match extractBlock content with
      | some block =>
        if block != "" then
          match env.parseYaml block with
          | .error _ => none
          | .ok v =>
            match v with
            | .mapping m => some m
            | .sequence elems => some (elems.enum.map (fun e => (toString e.1, e.2)))
            | _ => none
        else none
      | none => none
  else none

/-! ## Helper lemmas -/

theorem jsToString_str (s : String) : jsToString (.str s) = s := rfl

theorem dropWhile_head_false {α : Type} (p : α → Bool) :
    ∀ (l : List α) (c : α) (r : List α), l.dropWhile p = c :: r → p c = false := by
  intro l
  induction l with
  | nil => intro c r h; simp [List.dropWhile] at h
  | cons a as ih =>
    intro c r h
    rw [List.dropWhile_cons] at h
    by_cases hp : p a
    · rw [if_pos hp] at h; exact ih c r h
    · rw [if_neg hp] at h
      cases h
      exact Bool.not_eq_true _ ▸ (by simpa using hp)

theorem jsTrimList_idem (l : List Char) : jsTrimList (jsTrimList l) = jsTrimList l := by
  unfold jsTrimList
  have h1 : (((l.dropWhile jsWs).reverse.dropWhile jsWs).reverse).dropWhile jsWs
      = ((l.dropWhile jsWs).reverse.dropWhile jsWs).reverse := by
    cases hbr : ((l.dropWhile jsWs).reverse.dropWhile jsWs).reverse with
    | nil => simp
    | cons c t =>
      have hpre : ((l.dropWhile jsWs).reverse.dropWhile jsWs).reverse <+: l.dropWhile jsWs := by
        have h2 : (((l.dropWhile jsWs).reverse.dropWhile jsWs).reverse).reverse
            <:+ (l.dropWhile jsWs).reverse := by
          rw [List.reverse_reverse]
          exact List.dropWhile_suffix _
        exact List.reverse_suffix.mp h2
      rw [hbr] at hpre
      obtain ⟨u, hu⟩ := hpre
      have hc : jsWs c = false := dropWhile_head_false jsWs l c (t ++ u) hu.symm
      rw [List.dropWhile_cons]
      simp [hc]
  rw [h1, List.reverse_reverse, List.dropWhile_idempotent]

theorem jsTrim_idem (s : String) : jsTrim (jsTrim s) = jsTrim s :=
  congrArg String.mk (jsTrimList_idem s.data)

/-! ## C1: the display-name resolver copies against the spec contract -/

/-- C1, counterexample: with metadata mapping the property key to an
object value, the updateFileCache resolver coerces it to the string
"[object Object]" and reports a custom display, while the spec contract
(and the bulk buildFileCache resolver) demand the basename fallback, so
the two resolver copies do not behave identically on object values. -/
theorem c1_counterexample :
    resolveDisplayCoerce (some [("title", JsVal.obj)]) "note" "title"
        = ⟨"[object Object]", true⟩
    ∧ specResolveDisplay (some [("title", JsVal.obj)]) "note" "title" = ⟨"note", false⟩
    ∧ resolveDisplayCoerce (some [("title", JsVal.obj)]) "note" "title"
        ≠ resolveDisplayBulk (some [("title", JsVal.obj)]) "note" "title" := by
  refine ⟨by decide, by decide, by decide⟩

/-- C1, amended: the bulk buildFileCache resolver satisfies the spec
contract on every input; the updateFileCache String-coercion resolver
satisfies it on every input whose property value is absent, null or
scalar, and on a present non-scalar (array or object) value it agrees
with the contract exactly when the coerced string trims to empty (as
for an empty array) — when the coercion trims non-empty, as for every
object value, it reports that string as a custom display where the
contract and the bulk copy demand the basename fallback, so the copies
diverge there. -/
theorem c1_resolver_copies :
    ∀ (fm : Option Metadata) (basename propertyKey : String),
      resolveDisplayBulk fm basename propertyKey = specResolveDisplay fm basename propertyKey
      ∧ (scalarOrAbsent (optProp fm propertyKey) = true →
          resolveDisplayCoerce fm basename propertyKey
            = specResolveDisplay fm basename propertyKey)
      ∧ (∀ w, optProp fm propertyKey = some w → scalarOrAbsent (some w) = false →
          (resolveDisplayCoerce fm basename propertyKey
              = specResolveDisplay fm basename propertyKey
            ↔ jsTrim (jsToString w) = "")) := by
  intro fm bn k
  cases fm with
  | none =>
    refine ⟨rfl, fun _ => rfl, ?_⟩
    intro w hw _
    simp [optProp] at hw
  | some m =>
    cases hv : getProp m k with
    | none =>
      refine ⟨by simp [resolveDisplayBulk, specResolveDisplay, hv],
        fun _ => by simp [resolveDisplayCoerce, specResolveDisplay, hv], ?_⟩
      intro w hw _
      simp [optProp, hv] at hw
    | some v =>
      have hopt : optProp (some m) k = some v := by simp [optProp, hv]
      cases v with
      | str s =>
        refine ⟨?_, fun _ => ?_, ?_⟩
        · by_cases h : jsTrim s = "" <;>
            simp [resolveDisplayBulk, specResolveDisplay, hv, jsScalarB, jsToString_str, h]
        · by_cases h : jsTrim s = "" <;>
            simp [resolveDisplayCoerce, specResolveDisplay, hv, jsScalarB, jsToString_str, h]
        · intro w hw hns
          rw [hopt] at hw
          injection hw with hww
          subst hww
          simp [scalarOrAbsent, jsScalarB] at hns
      | num n =>
        refine ⟨?_, fun _ => ?_, ?_⟩
        · by_cases h : jsTrim (jsToString (.num n)) = "" <;>
            simp [resolveDisplayBulk, specResolveDisplay, hv, jsScalarB, h]
        · by_cases h : jsTrim (jsToString (.num n)) = "" <;>
            simp [resolveDisplayCoerce, specResolveDisplay, hv, jsScalarB, h]
        · intro w hw hns
          rw [hopt] at hw
          injection hw with hww
          subst hww
          simp [scalarOrAbsent, jsScalarB] at hns
      | bool b =>
        refine ⟨?_, fun _ => ?_, ?_⟩
        · by_cases h : jsTrim (jsToString (.bool b)) = "" <;>
            simp [resolveDisplayBulk, specResolveDisplay, hv, jsScalarB, h]
        · by_cases h : jsTrim (jsToString (.bool b)) = "" <;>
            simp [resolveDisplayCoerce, specResolveDisplay, hv, jsScalarB, h]
        · intro w hw hns
          rw [hopt] at hw
          injection hw with hww
          subst hww
          simp [scalarOrAbsent, jsScalarB] at hns
      | null =>
        refine ⟨by simp [resolveDisplayBulk, specResolveDisplay, hv, jsScalarB],
          fun _ => by simp [resolveDisplayCoerce, specResolveDisplay, hv, jsScalarB], ?_⟩
        intro w hw hns
        rw [hopt] at hw
        injection hw with hww
        subst hww
        simp [scalarOrAbsent] at hns
      | arr l =>
        refine ⟨by simp [resolveDisplayBulk, specResolveDisplay, hv, jsScalarB], fun hh => ?_, ?_⟩
        · simp [scalarOrAbsent, optProp, hv, jsScalarB] at hh
        · intro w hw _
          rw [hopt] at hw
          injection hw with hww
          subst hww
          by_cases hpv : jsTrim (jsToString (.arr l)) = ""
          · refine ⟨fun _ => hpv, fun _ => ?_⟩
            simp [resolveDisplayCoerce, specResolveDisplay, hv, jsScalarB, hpv]
          · refine ⟨fun heq => ?_, fun hpv2 => absurd hpv2 hpv⟩
            exfalso
            have hc : resolveDisplayCoerce (some m) bn k
                = ⟨jsTrim (jsToString (.arr l)), true⟩ := by
              simp [resolveDisplayCoerce, hv, hpv]
            have hs : specResolveDisplay (some m) bn k = ⟨bn, false⟩ := by
              simp [specResolveDisplay, hv, jsScalarB]
            rw [hc, hs] at heq
            have hflag := congrArg Resolved.isCustomDisplay heq
            simp at hflag
      | obj =>
        refine ⟨by simp [resolveDisplayBulk, specResolveDisplay, hv, jsScalarB], fun hh => ?_, ?_⟩
        · simp [scalarOrAbsent, optProp, hv, jsScalarB] at hh
        · intro w hw _
          rw [hopt] at hw
          injection hw with hww
          subst hww
          by_cases hpv : jsTrim (jsToString .obj) = ""
          · refine ⟨fun _ => hpv, fun _ => ?_⟩
            simp [resolveDisplayCoerce, specResolveDisplay, hv, jsScalarB, hpv]
          · refine ⟨fun heq => ?_, fun hpv2 => absurd hpv2 hpv⟩
            exfalso
            have hc : resolveDisplayCoerce (some m) bn k
                = ⟨jsTrim (jsToString .obj), true⟩ := by
              simp [resolveDisplayCoerce, hv, hpv]
            have hs : specResolveDisplay (some m) bn k = ⟨bn, false⟩ := by
              simp [specResolveDisplay, hv, jsScalarB]
            rw [hc, hs] at heq
            have hflag := congrArg Resolved.isCustomDisplay heq
            simp at hflag

/-- C1, witness: a concrete document with a padded string title on
which both resolver copies agree with the spec contract, plus the
non-scalar characterization instantiated at an object value (coercion
trims non-empty, so agreement fails) and at an empty array (coercion
trims to empty, so the coercion copy agrees with the contract). -/
theorem c1_witness :
    (resolveDisplayBulk (some [("title", JsVal.str "  My Title  ")]) "note" "title"
        = specResolveDisplay (some [("title", JsVal.str "  My Title  ")]) "note" "title")
    ∧ scalarOrAbsent (optProp (some [("title", JsVal.str "  My Title  ")]) "title") = true
    ∧ (resolveDisplayCoerce (some [("title", JsVal.str "  My Title  ")]) "note" "title"
        = specResolveDisplay (some [("title", JsVal.str "  My Title  ")]) "note" "title")
    ∧ (resolveDisplayCoerce (some [("title", JsVal.obj)]) "note" "title"
          = specResolveDisplay (some [("title", JsVal.obj)]) "note" "title"
        ↔ jsTrim (jsToString JsVal.obj) = "")
    ∧ (resolveDisplayCoerce (some [("title", JsVal.arr [])]) "note" "title"
          = specResolveDisplay (some [("title", JsVal.arr [])]) "note" "title"
        ↔ jsTrim (jsToString (JsVal.arr [])) = "") :=
  ⟨(c1_resolver_copies _ _ _).1, by decide, (c1_resolver_copies _ _ _).2.1 (by decide),
   (c1_resolver_copies (some [("title", JsVal.obj)]) "note" "title").2.2
     JsVal.obj rfl rfl,
   (c1_resolver_copies (some [("title", JsVal.arr [])]) "note" "title").2.2
     (JsVal.arr []) rfl rfl⟩

/-! ## C6: alias normalization -/

theorem normalizeAliases_arr_strings (L : List String) :
    normalizeAliases (.arr (L.map JsVal.str)) = (L.map jsTrim).filter (fun s => s != "") := by
  unfold normalizeAliases
  rw [show aliasElems (JsVal.arr (L.map JsVal.str)) = L.map JsVal.str from rfl,
    List.map_map, List.map_map]
  rfl

/-- C6: normalizing an already-normalized alias list changes nothing;
the spec example keeps duplicates and order while dropping the
whitespace-only entry; and normalization of an array is exactly the
order-preserving, duplicate-preserving map-then-filter pipeline. -/
theorem c6_normalize_aliases :
    (∀ v : JsVal,
      normalizeAliases (.arr ((normalizeAliases v).map JsVal.str)) = normalizeAliases v)
    ∧ normalizeAliases (.arr [.str "A1", .str "  ", .str "A1", .str "A2"]) = ["A1", "A1", "A2"]
    ∧ (∀ l : List JsVal,
        normalizeAliases (.arr l)
          = (l.map (fun a => jsTrim (jsToString a))).filter (fun s => s != "")) := by
  refine ⟨?_, by decide, ?_⟩
  · intro v
    rw [normalizeAliases_arr_strings]
    have htrim : (normalizeAliases v).map jsTrim = normalizeAliases v := by
      apply List.map_congr_left ?_ |>.trans (List.map_id' _)
      intro a ha
      unfold normalizeAliases at ha
      have hmem := (List.mem_filter.mp ha).1
      obtain ⟨b, _, hb⟩ := List.mem_map.mp hmem
      rw [← hb]
      exact jsTrim_idem b
    rw [htrim]
    apply List.filter_eq_self.mpr
    intro a ha
    unfold normalizeAliases at ha
    exact (List.mem_filter.mp ha).2
  · intro l
    unfold normalizeAliases
    rw [List.map_map]
    rfl

/-! ## C4, C5: tiered search classification -/

theorem aliasScan_tier (search : String → Option Int) :
    ∀ (al : List String) (m : TierMatch), aliasScan search al = some m → m.tier = .alias := by
  intro al
  induction al with
  | nil => intro m h; cases h
  | cons a rest ih =>
    intro m h
    unfold aliasScan at h
    cases hs : search a with
    | some s => rw [hs] at h; cases h; rfl
    | none => rw [hs] at h; exact ih m h

theorem aliasStep_tier (search : String → Option Int) (inclAlias : Bool)
    (al : List String) (m : TierMatch) :
    aliasStep search inclAlias al = some m → m.tier = .alias := by
  intro h
  unfold aliasStep at h
  by_cases hc : (inclAlias && !al.isEmpty) = true
  · rw [if_pos hc] at h
    exact aliasScan_tier search al m h
  · rw [if_neg hc] at h
    cases h

theorem titleMap_tier {search : String → Option Int} {dn : String} {m : TierMatch}
    (h : (search dn).map (fun s => (⟨.title, s⟩ : TierMatch)) = some m) :
    m.tier = .title := by
  cases hs : search dn with
  | none => rw [hs] at h; cases h
  | some s =>
    rw [hs, Option.map_some'] at h
    cases h
    rfl

theorem fnameStepGuard_some (search : String → Option Int)
    {inclFile : Bool} {dn bn : String} {m : TierMatch}
    (h : fnameStepGuard search inclFile dn bn = some m) :
    inclFile = true ∧ bn ≠ dn ∧ search bn = some (m.score + 1) ∧ m.tier = .filename := by
  unfold fnameStepGuard at h
  by_cases hc : (inclFile && (bn != dn)) = true
  · rw [if_pos hc] at h
    rw [Bool.and_eq_true, bne_iff_ne] at hc
    cases hs : search bn with
    | none => rw [hs] at h; cases h
    | some s =>
      rw [hs, Option.map_some'] at h
      injection h with h2
      subst h2
      exact ⟨hc.1, hc.2, congrArg some (Int.sub_add_cancel _ _).symm, rfl⟩
  · rw [if_neg hc] at h
    cases h

theorem qsFnameStep_some (search : String → Option Int)
    {inclFile c : Bool} {dn bn : String} {m : TierMatch}
    (h : qsFnameStep search inclFile c dn bn = some m) :
    m.tier = .filename
    ∧ ((inclFile = true ∧ bn ≠ dn ∧ search bn = some (m.score + 1))
        ∨ (¬(inclFile = true ∧ bn ≠ dn) ∧ c = false ∧ search bn = some m.score)) := by
  unfold qsFnameStep at h
  by_cases hc : (inclFile && (bn != dn)) = true
  · rw [if_pos hc] at h
    rw [Bool.and_eq_true, bne_iff_ne] at hc
    cases hs : search bn with
    | none => rw [hs] at h; cases h
    | some s =>
      rw [hs, Option.map_some'] at h
      injection h with h2
      subst h2
      exact ⟨rfl, Or.inl ⟨hc.1, hc.2, congrArg some (Int.sub_add_cancel _ _).symm⟩⟩
  · rw [if_neg hc] at h
    by_cases hcu : (!c) = true
    · rw [if_pos hcu] at h
      cases hs : search bn with
      | none => rw [hs] at h; cases h
      | some s =>
        rw [hs, Option.map_some'] at h
        injection h with h2
        subst h2
        refine ⟨rfl, Or.inr ⟨?_, by simpa using hcu, rfl⟩⟩
        intro hand
        exact hc (by simp [hand.1, hand.2])
    · rw [if_neg hcu] at h
      cases h

/-- C4: when the query fails the title tier but matches the basename,
with both include-filename and include-aliases enabled, the recorded
match reason is the file-name tier and never the alias tier, in both the
link suggester and the quick switcher classifications. -/
theorem c4_tier_ordering :
    ∀ (search : String → Option Int) (displayName basename : String)
      (aliases : List String) (s : Int),
      search displayName = none → search basename = some s →
      ((ltsClassify search true true displayName basename aliases).map TierMatch.tier
          = some MatchTier.filename)
      ∧ (∀ isCustom : Bool,
          (qsClassify search true true isCustom displayName basename aliases).map TierMatch.tier
            = some MatchTier.filename) := by
  intro search dn bn al s ht hf
  have hne : bn ≠ dn := fun h => by rw [h, ht] at hf; cases hf
  have hguard : fnameStepGuard search true dn bn = some ⟨.filename, s - 1⟩ := by
    unfold fnameStepGuard
    rw [if_pos (by simp [hne]), hf]
    rfl
  constructor
  · simp [ltsClassify, ht, hguard]
  · intro c
    have hqs : qsFnameStep search true c dn bn = some ⟨.filename, s - 1⟩ := by
      unfold qsFnameStep
      rw [if_pos (by simp [hne]), hf]
      rfl
    cases c <;> simp [qsClassify, ht, hqs]

/-- C4, witness: the spec example, a document with no title match whose
basename matches the query and which also carries an alias. -/
theorem c4_witness :
    ((ltsClassify (fun q => if q = "meeting-notes" then some 10 else none) true true
        "Meeting Notes" "meeting-notes" ["Sync"]).map TierMatch.tier
        = some MatchTier.filename)
    ∧ ((qsClassify (fun q => if q = "meeting-notes" then some 10 else none) true true false
        "Meeting Notes" "meeting-notes" ["Sync"]).map TierMatch.tier
        = some MatchTier.filename)
    ∧ ((qsClassify (fun q => if q = "meeting-notes" then some 10 else none) true true true
        "Meeting Notes" "meeting-notes" ["Sync"]).map TierMatch.tier
        = some MatchTier.filename) :=
  ⟨(c4_tier_ordering _ _ _ _ 10 (by decide) (by decide)).1,
   (c4_tier_ordering _ _ _ _ 10 (by decide) (by decide)).2 false,
   (c4_tier_ordering _ _ _ _ 10 (by decide) (by decide)).2 true⟩

/-- C5, counterexample: in the quick switcher, a candidate without
custom display whose basename matches is classified by the file-name
tier even though includeFilenameInSearch is false and the basename
equals the display name, and the score carries no minus-one penalty. -/
theorem c5_counterexample :
    qsClassify (fun q => if q = "note" then some 5 else none)
        false true false "note" "note" ["x"] = some ⟨.filename, 5⟩
    ∧ (some (⟨.filename, 5⟩ : TierMatch) ≠ some (⟨.filename, 5 - 1⟩ : TierMatch)) := by
  refine ⟨by decide, by decide⟩

/-- C5, amended: in the link suggester every file-name-tier match indeed
requires includeFilenameInSearch and a basename different from the
display name and is scored one below the raw basename match; in the
quick switcher the same holds whenever the candidate has a custom
display, but a candidate without custom display can be classified by
the unguarded file-name branch with no penalty when the guarded branch
does not apply. -/
theorem c5_filename_tier :
    ∀ (search : String → Option Int) (inclFile inclAlias : Bool)
      (displayName basename : String) (aliases : List String) (m : TierMatch),
      (ltsClassify search inclFile inclAlias displayName basename aliases = some m →
        m.tier = .filename →
        inclFile = true ∧ basename ≠ displayName ∧ search basename = some (m.score + 1))
      ∧ (∀ isCustom : Bool,
          qsClassify search inclFile inclAlias isCustom displayName basename aliases = some m →
          m.tier = .filename →
          (isCustom = true →
            inclFile = true ∧ basename ≠ displayName ∧ search basename = some (m.score + 1))
          ∧ (isCustom = false →
              (inclFile = true ∧ basename ≠ displayName ∧ search basename = some (m.score + 1))
              ∨ ((inclFile = false ∨ basename = displayName) ∧ search basename = some m.score))) := by
  intro search inclFile inclAlias dn bn al m
  constructor
  · intro hcl hm
    unfold ltsClassify at hcl
    cases hts : (search dn).map (fun s => (⟨.title, s⟩ : TierMatch)) with
    | some m0 =>
      rw [hts] at hcl
      cases hcl
      have htier := titleMap_tier hts
      rw [hm] at htier
      exact absurd htier (by decide)
    | none =>
      rw [hts] at hcl
      cases hfs : fnameStepGuard search inclFile dn bn with
      | some m0 =>
        rw [hfs] at hcl
        cases hcl
        obtain ⟨h1, h2, h3, _⟩ := fnameStepGuard_some search hfs
        exact ⟨h1, h2, h3⟩
      | none =>
        rw [hfs] at hcl
        have halias : aliasStep search inclAlias al = some m := hcl
        have htier := aliasStep_tier search inclAlias al m halias
        rw [hm] at htier
        exact absurd htier (by decide)
  · intro c hcl hm
    unfold qsClassify at hcl
    cases c with
    | true =>
      refine ⟨fun _ => ?_, fun hfalse => absurd hfalse (by decide)⟩
      rw [if_pos rfl] at hcl
      cases hts : (search dn).map (fun s => (⟨.title, s⟩ : TierMatch)) with
      | some m0 =>
        rw [hts] at hcl
        cases hcl
        have htier := titleMap_tier hts
        rw [hm] at htier
        exact absurd htier (by decide)
      | none =>
        rw [hts] at hcl
        cases hfs : qsFnameStep search inclFile true dn bn with
        | some m0 =>
          rw [hfs] at hcl
          cases hcl
          obtain ⟨_, hcases⟩ := qsFnameStep_some search hfs
          cases hcases with
          | inl hok => exact hok
          | inr hbad => exact absurd hbad.2.1 (by decide)
        | none =>
          rw [hfs] at hcl
          have halias : aliasStep search inclAlias al = some m := hcl
          have htier := aliasStep_tier search inclAlias al m halias
          rw [hm] at htier
          exact absurd htier (by decide)
    | false =>
      refine ⟨fun htrue => absurd htrue (by decide), fun _ => ?_⟩
      rw [if_neg (by decide)] at hcl
      cases hfs : qsFnameStep search inclFile false dn bn with
      | some m0 =>
        rw [hfs] at hcl
        cases hcl
        obtain ⟨_, hcases⟩ := qsFnameStep_some search hfs
        cases hcases with
        | inl hok => exact Or.inl hok
        | inr hbad =>
          refine Or.inr ⟨?_, hbad.2.2⟩
          by_cases hif : inclFile = true
          · right
            by_cases hbd : bn = dn
            · exact hbd
            · exact absurd ⟨hif, hbd⟩ hbad.1
          · left
            exact Bool.not_eq_true inclFile ▸ (by simpa using hif)
      | none =>
        rw [hfs] at hcl
        have halias : aliasStep search inclAlias al = some m := hcl
        have htier := aliasStep_tier search inclAlias al m halias
        rw [hm] at htier
        exact absurd htier (by decide)

/-- C5, witness: a concrete guarded file-name match in both call sites,
scored one below the raw basename score. -/
theorem c5_witness :
    (true = true ∧ "meeting-notes" ≠ "Meeting Notes"
      ∧ (fun q : String => if q = "meeting-notes" then some (10 : Int) else none) "meeting-notes"
          = some ((9 : Int) + 1))
    ∧ (true = true ∧ "meeting-notes" ≠ "Meeting Notes"
      ∧ (fun q : String => if q = "meeting-notes" then some (10 : Int) else none) "meeting-notes"
          = some ((9 : Int) + 1)) :=
  ⟨(c5_filename_tier (fun q => if q = "meeting-notes" then some 10 else none)
      true true "Meeting Notes" "meeting-notes" [] ⟨.filename, 9⟩).1 (by decide) rfl,
   ((c5_filename_tier (fun q => if q = "meeting-notes" then some 10 else none)
      true true "Meeting Notes" "meeting-notes" [] ⟨.filename, 9⟩).2 true (by decide) rfl).1 rfl⟩

/-! ## C2: WindowFrameService enable then disable -/

theorem boundOf_ne (f : FnRef) : FnRef.boundOf f ≠ f := by
  intro h
  have hsz : sizeOf (FnRef.boundOf f) = sizeOf f := congrArg sizeOf h
  simp only [FnRef.boundOf.sizeOf_spec] at hsz
  omega

/-- C2, counterexample: starting from a workspace whose updateTitle slot
holds a host function, enable followed by disable leaves the slot
holding a bound copy of that function, which is a different function
object from the one held before enable. -/
theorem c2_counterexample :
    (wfDisable (wfEnable ⟨some (.host 0), none, false⟩)).slot = some (.boundOf (.host 0))
    ∧ (wfDisable (wfEnable ⟨some (.host 0), none, false⟩)).slot ≠ some (.host 0)
    ∧ (⟨some (.host 0), none, false⟩ : WFState).slot = some (.host 0) := by
  refine ⟨by decide, by decide, by decide⟩

/-- C2, amended: enable followed by disable returns the service to the
disabled state with the slot holding a bound copy of the original
function: behaviorally equivalent to the original, but a distinct
function object rather than the identical reference. -/
theorem c2_enable_disable :
    ∀ (s : WFState) (f : FnRef),
      s.enabled = false → s.slot = some f →
      (wfDisable (wfEnable s)).slot = some (.boundOf f)
      ∧ FnRef.boundOf f ≠ f
      ∧ fnBehavior (.boundOf f) = fnBehavior f
      ∧ (wfDisable (wfEnable s)).enabled = false
      ∧ (wfDisable (wfEnable s)).original = none := by
  intro s f hen hslot
  have he : wfEnable s = ⟨some .pluginImpl, some (.boundOf f), true⟩ := by
    unfold wfEnable
    rw [hen, hslot]
    rfl
  rw [he]
  exact ⟨rfl, boundOf_ne f, rfl, rfl, rfl⟩

/-- C2, witness: the amended theorem at a concrete initial state. -/
theorem c2_witness :
    (wfDisable (wfEnable ⟨some (.host 3), none, false⟩)).slot = some (.boundOf (.host 3))
    ∧ FnRef.boundOf (.host 3) ≠ FnRef.host 3
    ∧ fnBehavior (.boundOf (.host 3)) = fnBehavior (.host 3)
    ∧ (wfDisable (wfEnable ⟨some (.host 3), none, false⟩)).enabled = false
    ∧ (wfDisable (wfEnable ⟨some (.host 3), none, false⟩)).original = none :=
  c2_enable_disable ⟨some (.host 3), none, false⟩ (.host 3) rfl rfl

/-! ## Association list lemmas -/

theorem lookupAssoc_setAssoc_self {β : Type} (l : List (String × β)) (k : String) (v : β) :
    lookupAssoc (setAssoc l k v) k = some v := by
  induction l with
  | nil => simp [setAssoc, lookupAssoc]
  | cons e rest ih =>
    obtain ⟨k0, v0⟩ := e
    by_cases h : (k0 == k) = true
    · simp [setAssoc, lookupAssoc, h]
    · simp only [setAssoc, lookupAssoc, h, Bool.false_eq_true, if_false]
      exact ih

theorem lookupAssoc_setAssoc_ne {β : Type} (l : List (String × β)) (k k' : String) (v : β)
    (h : k' ≠ k) : lookupAssoc (setAssoc l k v) k' = lookupAssoc l k' := by
  have hkk : (k == k') = false := beq_eq_false_iff_ne.mpr (Ne.symm h)
  induction l with
  | nil => simp [setAssoc, lookupAssoc, hkk]
  | cons e rest ih =>
    obtain ⟨k0, v0⟩ := e
    by_cases h0 : (k0 == k) = true
    · have hk0 : k0 = k := beq_iff_eq.mp h0
      subst hk0
      simp [setAssoc, lookupAssoc, hkk]
    · simp only [setAssoc, lookupAssoc, h0, Bool.false_eq_true, if_false]
      by_cases h1 : (k0 == k') = true
      · simp [lookupAssoc, h1]
      · simp only [lookupAssoc, h1, Bool.false_eq_true, if_false]
        exact ih

theorem lookupAssoc_removeAssoc_self {β : Type} (l : List (String × β)) (k : String) :
    lookupAssoc (removeAssoc l k) k = none := by
  induction l with
  | nil => rfl
  | cons e rest ih =>
    obtain ⟨k0, v0⟩ := e
    by_cases h : (k0 == k) = true
    · have hb : ((k0, v0).1 != k) = false := by simp [bne, h]
      unfold removeAssoc at ih ⊢
      rw [List.filter_cons, hb]
      exact ih
    · have hb : ((k0, v0).1 != k) = true := by simp [bne, h]
      unfold removeAssoc at ih ⊢
      rw [List.filter_cons, hb]
      simp only [if_true]
      simp only [lookupAssoc, h, Bool.false_eq_true, if_false]
      exact ih

theorem lookupAssoc_removeAssoc_ne {β : Type} (l : List (String × β)) (k k' : String)
    (h : k' ≠ k) : lookupAssoc (removeAssoc l k) k' = lookupAssoc l k' := by
  induction l with
  | nil => rfl
  | cons e rest ih =>
    obtain ⟨k0, v0⟩ := e
    by_cases h0 : (k0 == k) = true
    · have hk0 : k0 = k := beq_iff_eq.mp h0
      have hb : ((k0, v0).1 != k) = false := by simp [bne, h0]
      have hkk : (k0 == k') = false := by
        rw [hk0]
        exact beq_eq_false_iff_ne.mpr (Ne.symm h)
      unfold removeAssoc at ih ⊢
      rw [List.filter_cons, hb]
      simp only [Bool.false_eq_true, if_false]
      rw [ih]
      simp [lookupAssoc, hkk]
    · have hb : ((k0, v0).1 != k) = true := by simp [bne, h0]
      unfold removeAssoc at ih ⊢
      rw [List.filter_cons, hb]
      simp only [if_true]
      by_cases h1 : (k0 == k') = true
      · simp [lookupAssoc, h1]
      · simp only [lookupAssoc, h1, Bool.false_eq_true, if_false]
        exact ih

/-! ## C7: cache membership under delete and rebuild -/

theorem buildFileCache_lookup_aux (mc : String → Option Metadata) (key p : String) :
    ∀ (files : List FileRec) (acc : List (String × CachedFileData)),
      (files.map (fun f => f.path)).Nodup →
      lookupAssoc
          (files.foldl (fun acc f => setAssoc acc f.path (resolveRecord f (mc f.path) key)) acc) p
        = (match files.find? (fun f => f.path == p) with
           | some f => some (resolveRecord f (mc f.path) key)
           | none => lookupAssoc acc p) := by
  intro files
  induction files with
  | nil => intro acc _; rfl
  | cons f rest ih =>
    intro acc hnd
    rw [List.map_cons, List.nodup_cons] at hnd
    obtain ⟨hnotin, hnd2⟩ := hnd
    rw [List.foldl_cons]
    by_cases hp : (f.path == p) = true
    · have hfp : f.path = p := beq_iff_eq.mp hp
      have hfind : rest.find? (fun g => g.path == p) = none := by
        rw [List.find?_eq_none]
        intro g hg hgp
        apply hnotin
        exact List.mem_map.mpr ⟨g, hg, by rw [hfp]; exact beq_iff_eq.mp hgp⟩
      have hfc : List.find? (fun g : FileRec => g.path == p) (f :: rest) = some f := by
        rw [List.find?_cons, hp]
      rw [hfc, ih _ hnd2, hfind]
      rw [← hfp]
      exact lookupAssoc_setAssoc_self acc f.path _
    · have hpb : (f.path == p) = false := by
        cases hb : (f.path == p) with
        | false => rfl
        | true => exact absurd hb hp
      have hfc : List.find? (fun g : FileRec => g.path == p) (f :: rest)
          = rest.find? (fun g => g.path == p) := by
        rw [List.find?_cons, hpb]
      rw [hfc, ih _ hnd2]
      have hne : p ≠ f.path := fun hh => hp (by rw [hh]; simp)
      cases hfind : rest.find? (fun g => g.path == p) with
      | some g => rfl
      | none => exact lookupAssoc_setAssoc_ne acc f.path p _ hne

/-- C7, counterexample: the vault delete handler re-resolves and
re-inserts the entry for the deleted file instead of removing it: after
deleting a.md (whose metadata is gone), the cache still holds a record
keyed by a.md with the basename fallback. -/
theorem c7_counterexample :
    lookupAssoc (deleteHandler
        [("a.md", resolveRecord ⟨"a.md", "a", 5⟩ (some [("title", JsVal.str "Alpha")]) "title")]
        ⟨"a.md", "a", 5⟩ none "title") "a.md"
      = some ⟨"a.md", "a", [], 5, false⟩
    ∧ lookupAssoc (deleteHandler
        [("a.md", resolveRecord ⟨"a.md", "a", 5⟩ (some [("title", JsVal.str "Alpha")]) "title")]
        ⟨"a.md", "a", 5⟩ none "title") "a.md" ≠ none := by
  refine ⟨by decide, by decide⟩

/-- C7, amended: the delete handler leaves a freshly re-resolved entry
for the deleted path in place (it never removes an entry), while a full
rebuild over the live documents yields exactly one record per given
document, field-for-field equal to resolving that document
individually. -/
theorem c7_delete_and_rebuild :
    (∀ (cache : List (String × CachedFileData)) (f : FileRec) (fm : Option Metadata)
        (key : String),
      lookupAssoc (deleteHandler cache f fm key) f.path = some (resolveRecord f fm key))
    ∧ (∀ (files : List FileRec) (mc : String → Option Metadata) (key p : String),
        (files.map (fun f => f.path)).Nodup →
        lookupAssoc (buildFileCachePure files mc key) p
          = (files.find? (fun f => f.path == p)).map
              (fun f => resolveRecord f (mc f.path) key)) := by
  constructor
  · intro cache f fm key
    exact lookupAssoc_setAssoc_self cache f.path _
  · intro files mc key p hnd
    unfold buildFileCachePure
    rw [buildFileCache_lookup_aux mc key p files [] hnd]
    cases hfind : files.find? (fun f => f.path == p) with
    | some f => rfl
    | none => rfl

/-- C7, witness: the delete handler conclusion on a one-entry cache, and
the rebuild conclusion on a two-document vault. -/
theorem c7_witness :
    (lookupAssoc (deleteHandler [] ⟨"b.md", "b", 1⟩ (some [("title", JsVal.str "Beta")]) "title")
        "b.md" = some (resolveRecord ⟨"b.md", "b", 1⟩ (some [("title", JsVal.str "Beta")]) "title"))
    ∧ (([⟨"a.md", "a", 1⟩, ⟨"b.md", "b", 2⟩] : List FileRec).map (fun f => f.path)).Nodup
    ∧ (lookupAssoc (buildFileCachePure [⟨"a.md", "a", 1⟩, ⟨"b.md", "b", 2⟩]
          (fun _ => none) "title") "b.md"
        = (([⟨"a.md", "a", 1⟩, ⟨"b.md", "b", 2⟩] : List FileRec).find?
            (fun f => f.path == "b.md")).map
              (fun f => resolveRecord f ((fun _ : String => (none : Option Metadata)) f.path)
                "title")) :=
  ⟨c7_delete_and_rebuild.1 [] ⟨"b.md", "b", 1⟩ (some [("title", JsVal.str "Beta")]) "title",
   by decide,
   c7_delete_and_rebuild.2 [⟨"a.md", "a", 1⟩, ⟨"b.md", "b", 2⟩] (fun _ => none) "title" "b.md"
     (by decide)⟩

/-! ## C9: accessor failure absorption -/

/-- C9: the async accessor getFrontmatter absorbs every failure into
none (its total Option return type is the shallow form of "no exception
reaches the caller"): on the mdx path a rejected raw-content read yields
none, a parser exception on the extracted block yields none, and a parse
result that is not an object yields none. -/
theorem c9_accessor_absorbs :
    ∀ (env : AccessorEnv),
      (env.ext = "mdx" → env.mdxSupport = true → env.readResult = .error () →
        getFrontmatterModel env = none)
      ∧ (∀ content block, env.ext = "mdx" → env.mdxSupport = true →
          env.readResult = .ok content → extractBlock content = some block → block ≠ "" →
          env.parseYaml block = .error () → getFrontmatterModel env = none)
      ∧ (∀ content block v, env.ext = "mdx" → env.mdxSupport = true →
          env.readResult = .ok content → extractBlock content = some block → block ≠ "" →
          env.parseYaml block = .ok v → yamlIsObject v = false →
          getFrontmatterModel env = none) := by
  intro env
  refine ⟨?_, ?_, ?_⟩
  · intro hext hsup hread
    simp [getFrontmatterModel, hext, hsup, hread]
  · intro content block hext hsup hread hblk hne hparse
    have hb : (block != "") = true := bne_iff_ne.mpr hne
    simp [getFrontmatterModel, hext, hsup, hread, hblk, hb, hparse]
  · intro content block v hext hsup hread hblk hne hparse hobj
    have hb : (block != "") = true := bne_iff_ne.mpr hne
    cases v with
    | mapping m => exact absurd hobj (by simp [yamlIsObject])
    | sequence elems => exact absurd hobj (by simp [yamlIsObject])
    | scalar w => simp [getFrontmatterModel, hext, hsup, hread, hblk, hb, hparse]
    | nil => simp [getFrontmatterModel, hext, hsup, hread, hblk, hb, hparse]

/-- C9, witness: a rejected read on a supported mdx file yields none. -/
theorem c9_witness :
    getFrontmatterModel ⟨"mdx", true, none, .error (), fun _ => .error ()⟩ = none :=
  (c9_accessor_absorbs ⟨"mdx", true, none, .error (), fun _ => .error ()⟩).1 rfl rfl rfl

/-! ## C3: completion order decides the cached value -/

/-- C3, counterexample: the interleaving get, invalidate, get, then the
second read completing with the new metadata before the first read
completes with the old metadata, leaves the cache holding the
first-issued (superseded) result: completion order wins, not issue
order. -/
theorem c3_counterexample :
    fcGetSync (fcRun [FCAct.get "p", .invalidate "p", .get "p",
        .complete 1 (some [("title", JsVal.str "New")]),
        .complete 0 (some [("title", JsVal.str "Old")])]) "p"
      = some (some [("title", JsVal.str "Old")])
    ∧ (some (some [("title", JsVal.str "Old")]) : Option (Option Metadata))
        ≠ some (some [("title", JsVal.str "New")]) := by
  constructor
  · rfl
  · intro h
    injection h with h1
    injection h1 with h2
    injection h2 with h3 h4
    injection h3 with h5 h6
    injection h6 with h7
    exact absurd h7 (by decide)

/-- C3, amended: in the scenario of the claim (a second read issued
after invalidate while the first is in flight), the value finally cached
is the one delivered by whichever read completes last — the
later-issued read wins only when it also completes last, and no stale
result is discarded. -/
theorem c3_last_completed_wins :
    ∀ (α : Type) (v1 v2 : α),
      fcGetSync (fcRun [FCAct.get "p", .invalidate "p", .get "p",
          .complete 0 v1, .complete 1 v2]) "p" = some v2
      ∧ fcGetSync (fcRun [FCAct.get "p", .invalidate "p", .get "p",
          .complete 1 v2, .complete 0 v1]) "p" = some v1 := by
  intro α v1 v2
  exact ⟨rfl, rfl⟩

/-! ## C8: at most one in-flight read per identity -/

theorem fcInv_init {α : Type} : FCInv (fcInit α) := by
  refine ⟨?_, ?_, ?_⟩ <;> simp [fcInit]

theorem fcInv_step_get {α : Type} (s : FCState α) (p : String) (hinv : FCInv s) :
    FCInv (fcStep s (.get p)) := by
  obtain ⟨h1, h2, h3⟩ := hinv
  simp only [fcStep]
  by_cases hc : (lookupAssoc s.cache p).isSome = true
  · rw [if_pos hc]
    exact ⟨h1, h2, h3⟩
  · rw [if_neg hc]
    by_cases hp : (lookupAssoc s.pending p).isSome = true
    · rw [if_pos hp]
      exact ⟨h1, h2, h3⟩
    · rw [if_neg hp]
      refine ⟨?_, ?_, ?_⟩
      · intro r hr
        rw [List.mem_append] at hr
        cases hr with
        | inl hold => exact Nat.lt_trans (h1 r hold) (Nat.lt_succ_self _)
        | inr hnew =>
          rw [List.mem_singleton] at hnew
          subst hnew
          exact Nat.lt_succ_self _
      · rw [List.pairwise_append]
        refine ⟨h2, List.pairwise_singleton _ _, ?_⟩
        intro a ha b hb
        rw [List.mem_singleton] at hb
        subst hb
        exact Nat.ne_of_lt (h1 a ha)
      · intro r hr hcomp
        rw [List.mem_append, List.mem_singleton] at hr
        cases hr with
        | inr hnew =>
          subst hnew
          exact lookupAssoc_setAssoc_self s.pending p s.nextId
        | inl hold =>
          by_cases hpath : r.path = p
          · exfalso
            have hlk := h3 r hold hcomp
            rw [hpath] at hlk
            rw [hlk] at hp
            exact hp rfl
          · rw [lookupAssoc_setAssoc_ne s.pending p r.path s.nextId hpath]
            exact h3 r hold hcomp

theorem fcInv_step_complete {α : Type} (s : FCState α) (rid : Nat) (v : α) (hinv : FCInv s) :
    FCInv (fcStep s (.complete rid v)) := by
  obtain ⟨h1, h2, h3⟩ := hinv
  simp only [fcStep]
  cases hf : s.reads.find? (fun r => r.rid == rid) with
  | none => exact ⟨h1, h2, h3⟩
  | some r =>
    simp only [fcApplyComplete]
    have hrmem : r ∈ s.reads := List.mem_of_find?_eq_some hf
    have hps := List.find?_some hf
    have hrid : r.rid = rid := beq_iff_eq.mp hps
    by_cases hrc : r.completed = true
    · rw [if_pos hrc]
      exact ⟨h1, h2, h3⟩
    · rw [if_neg hrc]
      have hrc' : r.completed = false := by
        cases hx : r.completed
        · rfl
        · exact absurd hx hrc
      have hgrid : ∀ q : ReadRec,
          ((fun q : ReadRec => if q.rid == rid then (⟨q.rid, q.path, true⟩ : ReadRec) else q) q).rid
            = q.rid := by
        intro q
        by_cases hb : (q.rid == rid) = true <;> simp [hb]
      refine ⟨?_, ?_, ?_⟩
      · intro q' hq'
        obtain ⟨q, hq, hgq⟩ := List.mem_map.mp hq'
        rw [← hgq, hgrid q]
        exact h1 q hq
      · rw [List.pairwise_map]
        refine h2.imp ?_
        intro a b hab
        rw [hgrid a, hgrid b]
        exact hab
      · intro q' hq' hqc
        obtain ⟨q, hq, hgq⟩ := List.mem_map.mp hq'
        by_cases hb : (q.rid == rid) = true
        · exfalso
          rw [← hgq] at hqc
          simp [hb] at hqc
        · have hq'q : q' = q := by rw [← hgq]; simp [hb]
          rw [hq'q] at hqc
          rw [hq'q]
          have hold := h3 q hq hqc
          by_cases hpth : q.path = r.path
          · exfalso
            have holdr := h3 r hrmem hrc'
            rw [hpth] at hold
            rw [holdr] at hold
            injection hold with he
            rw [hrid] at he
            exact hb (beq_iff_eq.mpr he.symm)
          · rw [lookupAssoc_removeAssoc_ne s.pending r.path q.path hpth]
            exact hold

theorem fcInv_run {α : Type} : ∀ (tr : List (FCAct α)) (s : FCState α),
    FCInv s → (∀ a ∈ tr, isGetOrComplete a = true) → FCInv (tr.foldl fcStep s) := by
  intro tr
  induction tr with
  | nil => intro s hs _; exact hs
  | cons a rest ih =>
    intro s hs hall
    rw [List.foldl_cons]
    apply ih
    · have ha := hall a (List.mem_cons_self a rest)
      cases a with
      | get p => exact fcInv_step_get s p hs
      | complete rid v => exact fcInv_step_complete s rid v hs
      | invalidate p => simp [isGetOrComplete] at ha
      | clear => simp [isGetOrComplete] at ha
    · intro b hb
      exact hall b (List.mem_cons_of_mem a hb)

theorem pairwise_inflight_paths {α : Type} (s : FCState α) (hinv : FCInv s) :
    List.Pairwise (fun r1 r2 => r1.path ≠ r2.path)
      (s.reads.filter (fun r => !r.completed)) := by
  obtain ⟨h1, h2, h3⟩ := hinv
  have hp2 := List.Pairwise.filter (fun r : ReadRec => !r.completed) h2
  refine List.Pairwise.imp_of_mem ?_ hp2
  intro a b ha hb hne hpeq
  obtain ⟨hain, hacomp⟩ := List.mem_filter.mp ha
  obtain ⟨hbin, hbcomp⟩ := List.mem_filter.mp hb
  have ha' : a.completed = false := by simpa using hacomp
  have hb' : b.completed = false := by simpa using hbcomp
  have hla := h3 a hain ha'
  have hlb := h3 b hbin hb'
  rw [hpeq] at hla
  rw [hlb] at hla
  injection hla with he
  exact hne he.symm

/-- C8: along every interleaving consisting only of get calls and read
completions, the in-flight reads have pairwise distinct keys — at most
one underlying read per identity is ever in flight, concurrent callers
sharing the pending one. -/
theorem c8_single_inflight :
    ∀ (α : Type) (tr : List (FCAct α)),
      (∀ a ∈ tr, isGetOrComplete a = true) →
      List.Pairwise (fun r1 r2 => r1.path ≠ r2.path)
        ((fcRun tr).reads.filter (fun r => !r.completed)) := by
  intro α tr htr
  exact pairwise_inflight_paths _ (fcInv_run tr (fcInit α) fcInv_init htr)

/-- C8, witness: three overlapping get calls on two keys with one
completion in between. -/
theorem c8_witness :
    List.Pairwise (fun r1 r2 => r1.path ≠ r2.path)
      ((fcRun ([FCAct.get "p", .get "p", .get "q", .complete 0 5, .get "p"]
          : List (FCAct Nat))).reads.filter (fun r => !r.completed)) :=
  c8_single_inflight Nat _ (by decide)

/-! ## C10: the three-valued synchronous lookup -/

theorem memS_cons_eq (a : String) (rest : List String) (p : String) (h : (a == p) = true) :
    memS (a :: rest) p = true := by
  simp [memS, h]

theorem memS_cons_ne (a : String) (rest : List String) (p : String) (h : (a == p) = false) :
    memS (a :: rest) p = memS rest p := by
  simp [memS, h]

theorem memS_filter_self (flags : List String) (p' : String) :
    memS (flags.filter (fun q => q != p')) p' = false := by
  induction flags with
  | nil => rfl
  | cons a rest ih =>
    rw [List.filter_cons]
    by_cases hb : (a != p') = true
    · rw [if_pos hb]
      have hne : (a == p') = false := by
        cases hx : (a == p')
        · rfl
        · exact absurd (by simp [bne, hx] : (a != p') = false) (by simp [hb])
      rw [memS_cons_ne a _ p' hne]
      exact ih
    · rw [if_neg hb]
      exact ih

theorem memS_filter_ne (flags : List String) (p' p : String) (h : p ≠ p') :
    memS (flags.filter (fun q => q != p')) p = memS flags p := by
  induction flags with
  | nil => rfl
  | cons a rest ih =>
    rw [List.filter_cons]
    by_cases hb : (a != p') = true
    · rw [if_pos hb]
      by_cases hap : (a == p) = true
      · rw [memS_cons_eq a _ p hap, memS_cons_eq a rest p hap]
      · have hap' : (a == p) = false := by
          cases hx : (a == p)
          · rfl
          · exact absurd hx hap
        rw [memS_cons_ne a _ p hap', memS_cons_ne a rest p hap']
        exact ih
    · rw [if_neg hb]
      have ha' : a = p' := by
        cases hx : (a == p') with
        | true => exact beq_iff_eq.mp hx
        | false => exact absurd (by simp [bne, hx] : (a != p') = true) hb
      have hap' : (a == p) = false := beq_eq_false_iff_ne.mpr (by rw [ha']; exact Ne.symm h)
      rw [memS_cons_ne a rest p hap']
      exact ih

theorem c10_step {α : Type} (s : FCState α) (flags : List String) (last : List (String × α))
    (a : FCAct α)
    (h1 : ∀ p, (lookupAssoc s.cache p).isSome = memS flags p) (h2 : s.cache = last) :
    (∀ p, (lookupAssoc (fcStep s a).cache p).isSome = memS (fcFlagsStep s flags a) p)
    ∧ (fcStep s a).cache = fcLastStep s last a := by
  cases a with
  | get p' =>
    have hcache : (fcStep s (.get p')).cache = s.cache := by
      simp only [fcStep]
      by_cases hc : (lookupAssoc s.cache p').isSome = true
      · rw [if_pos hc]
      · rw [if_neg hc]
        by_cases hp : (lookupAssoc s.pending p').isSome = true
        · rw [if_pos hp]
        · rw [if_neg hp]
    constructor
    · intro p
      rw [hcache]
      simp only [fcFlagsStep]
      by_cases hc : (lookupAssoc s.cache p').isSome = true
      · rw [if_pos hc]
        by_cases hpp : (p' == p) = true
        · have hpe : p' = p := beq_iff_eq.mp hpp
          rw [memS_cons_eq p' flags p hpp, ← hpe]
          exact hc
        · have hpp' : (p' == p) = false := by
            cases hx : (p' == p)
            · rfl
            · exact absurd hx hpp
          rw [memS_cons_ne p' flags p hpp']
          exact h1 p
      · rw [if_neg hc]
        exact h1 p
    · rw [hcache]
      simp only [fcLastStep]
      exact h2
  | complete rid v =>
    simp only [fcStep, fcFlagsStep, fcLastStep]
    cases hf : s.reads.find? (fun r => r.rid == rid) with
    | none =>
      simp only [fcApplyComplete, fcFlagsComplete, fcLastComplete]
      exact ⟨h1, h2⟩
    | some r =>
      simp only [fcApplyComplete, fcFlagsComplete, fcLastComplete]
      by_cases hrc : r.completed = true
      · rw [if_pos hrc, if_pos hrc, if_pos hrc]
        exact ⟨h1, h2⟩
      · rw [if_neg hrc, if_neg hrc, if_neg hrc]
        constructor
        · intro p
          by_cases hpp : (r.path == p) = true
          · have hpe : r.path = p := beq_iff_eq.mp hpp
            rw [memS_cons_eq r.path flags p hpp, ← hpe, lookupAssoc_setAssoc_self]
            rfl
          · have hne : p ≠ r.path := by
              intro hh
              exact absurd (beq_iff_eq.mpr hh.symm) hpp
            have hpp' : (r.path == p) = false := by
              cases hx : (r.path == p)
              · rfl
              · exact absurd hx hpp
            rw [memS_cons_ne r.path flags p hpp', lookupAssoc_setAssoc_ne s.cache r.path p v hne]
            exact h1 p
        · rw [h2]
  | invalidate p' =>
    constructor
    · intro p
      simp only [fcStep, fcFlagsStep]
      by_cases hpp : p = p'
      · rw [hpp, lookupAssoc_removeAssoc_self, memS_filter_self]
        rfl
      · rw [lookupAssoc_removeAssoc_ne s.cache p' p hpp, memS_filter_ne flags p' p hpp]
        exact h1 p
    · simp only [fcStep, fcLastStep]
      rw [h2]
  | clear =>
    exact ⟨fun p => rfl, rfl⟩

theorem c10_run {α : Type} :
    ∀ (tr : List (FCAct α)) (acc : FCState α × List String × List (String × α)),
      (∀ p, (lookupAssoc acc.1.cache p).isSome = memS acc.2.1 p) → acc.1.cache = acc.2.2 →
      (∀ p, (lookupAssoc (tr.foldl fcStepH acc).1.cache p).isSome
          = memS (tr.foldl fcStepH acc).2.1 p)
      ∧ (tr.foldl fcStepH acc).1.cache = (tr.foldl fcStepH acc).2.2 := by
  intro tr
  induction tr with
  | nil => intro acc ha hb; exact ⟨ha, hb⟩
  | cons a rest ih =>
    intro acc ha hb
    rw [List.foldl_cons]
    have hstep := c10_step acc.1 acc.2.1 acc.2.2 a ha hb
    exact ih (fcStepH acc a) hstep.1 hstep.2

theorem fcRunH_fst {α : Type} :
    ∀ (tr : List (FCAct α)) (s : FCState α) (flags : List String) (last : List (String × α)),
      (tr.foldl fcStepH (s, flags, last)).1 = tr.foldl fcStep s := by
  intro tr
  induction tr with
  | nil => intro s flags last; rfl
  | cons a rest ih =>
    intro s flags last
    rw [List.foldl_cons, List.foldl_cons]
    exact ih (fcStep s a) (fcFlagsStep s flags a) (fcLastStep s last a)

/-- C10: along every interleaving of get, completion, invalidate and
clear events, getSync is populated (not undefined) exactly for the keys
for which some get call has completed since the last invalidate of that
key or clear, and the stored value always equals the result recorded by
the most recent completed read — in the Option-Metadata instantiation,
getSync returns the null marker exactly when that read determined the
document has no usable frontmatter. -/
theorem c10_three_valued :
    ∀ (α : Type) (tr : List (FCAct α)) (p : String),
      ((fcGetSync (fcRun tr) p).isSome = memS (fcRunH tr).2.1 p)
      ∧ fcGetSync (fcRun tr) p = lookupAssoc (fcRunH tr).2.2 p := by
  intro α tr p
  have h := c10_run tr (fcInit α, [], []) (fun _ => rfl) rfl
  have hfst : (fcRunH tr).1 = fcRun tr := fcRunH_fst tr (fcInit α) [] []
  constructor
  · rw [show fcGetSync (fcRun tr) p = lookupAssoc (fcRunH tr).1.cache p from by rw [hfst]; rfl]
    exact h.1 p
  · rw [show fcGetSync (fcRun tr) p = lookupAssoc (fcRunH tr).1.cache p from by rw [hfst]; rfl]
    exact congrArg (fun l => lookupAssoc l p) h.2

end POF
